import Mathlib

/-!
# Verification of the SME contract risk bot core pipeline

A shallow embedding, in Lean 4, of the text-processing core of the
`sme-contract-risk-bot` repository: the script-aware text normalizers
(`language_detector.py`, `risk_engine.py`), the clause segmenter
(`clause_extractor.py`), the two clause risk scorers (`utils.py`,
`risk_engine.py`), the contract plausibility check and the suggestion
engine (`utils.py`).

Texts are modelled as `List Char`.  Python regular expressions are
translated operation by operation into structurally recursive scanning
functions over the character list, so that every definition is
executable and every concrete run can be settled by `decide`/`rfl`.

Modelling notes, applying throughout:
* Python `str.lower` is modelled as ASCII lowercasing (`lowerChar`).
  The repository's keyword tables and regular expressions only
  distinguish ASCII letters, ASCII digits and the Devanagari block,
  on which this agrees with Python.
* Python's `\s` class is modelled as the six ASCII whitespace
  characters (`isSpaceB`); Python additionally accepts rare Unicode
  spaces which none of the repository's patterns produce.
* Python's `\w` class is modelled as ASCII alphanumerics, `_` and the
  Devanagari block (`isWordChar`), the scripts this program processes.
* The optional `langdetect` classifier is an external collaborator
  (spec section 4.1 and 6); `detect_language` is modelled by its
  documented deterministic fallback: any Devanagari codepoint means
  Hindi, otherwise English, empty or whitespace-only means unknown.
-/

/-- ASCII lowercasing of one character: `A`..`Z` shift by 32, all other
characters unchanged (Devanagari and digits have no case). -/
def lowerChar (c : Char) : Char :=
  if 65 ≤ c.toNat ∧ c.toNat ≤ 90 then Char.ofNat (c.toNat + 32) else c

/-- Python's `\s` character class (ASCII part): space, tab, newline,
carriage return, vertical tab, form feed. -/
def isSpaceB (c : Char) : Bool :=
  c == ' ' || c == '\t' || c == '\n' || c == '\r' || c == '\x0b' || c == '\x0c'

/-- Membership in the Devanagari Unicode block U+0900..U+097F. -/
def isDev (c : Char) : Bool :=
  0x900 ≤ c.toNat && c.toNat ≤ 0x97F

/-- ASCII decimal digit (codepoints 48..57). -/
def isDigitB (c : Char) : Bool :=
  48 ≤ c.toNat && c.toNat ≤ 57

/-- ASCII lowercase letter (codepoints 97..122). -/
def isLowerAlpha (c : Char) : Bool :=
  97 ≤ c.toNat && c.toNat ≤ 122

/-- ASCII uppercase letter (codepoints 65..90). -/
def isUpperAlpha (c : Char) : Bool :=
  65 ≤ c.toNat && c.toNat ≤ 90

/-- Python's `\w` class, modelled for the scripts this program handles:
ASCII letters, ASCII digits, underscore, and the Devanagari block. -/
def isWordChar (c : Char) : Bool :=
  isLowerAlpha c || isUpperAlpha c || isDigitB c || c == '_' || isDev c

/-- `re.sub(r'\s+', ' ', text)`: collapse every maximal run of
whitespace characters into a single space. -/
def squeeze : List Char → List Char
  | [] => []
  | [c] => [if isSpaceB c then ' ' else c]
  | a :: b :: rest =>
    if isSpaceB a && isSpaceB b then squeeze (b :: rest)
    else (if isSpaceB a then ' ' else a) :: squeeze (b :: rest)

/-- Python `str.strip()`: drop leading and trailing whitespace. -/
def strip (l : List Char) : List Char :=
  List.rdropWhile isSpaceB (l.dropWhile isSpaceB)

/-- The shared shape of the repository's cleaning functions:
`text.lower()`, then `re.sub('[^GOOD\s]', ' ', text)`, then
`re.sub(r'\s+', ' ', text)`, then `.strip()`.  `good` is the kept
character class of the branch (besides whitespace). -/
def cleanWith (good : Char → Bool) (l : List Char) : List Char :=
  strip (squeeze ((l.map lowerChar).map fun c => if good c || isSpaceB c then c else ' '))

/-- `pat` is a prefix of `l` (character-wise). -/
def isPrefixL : List Char → List Char → Bool
  | [], _ => true
  | _ :: _, [] => false
  | a :: as, b :: bs => a == b && isPrefixL as bs

/-- `pat` occurs as a contiguous substring of `l`. -/
def hasSub (pat : List Char) : List Char → Bool
  | [] => pat.isEmpty
  | b :: rest => isPrefixL pat (b :: rest) || hasSub pat rest

/-- substring test used to model Python's `in` on strings. -/
def subStr (pat : String) (l : List Char) : Bool :=
  hasSub pat.toList l

namespace LanguageDetector

/-- `language_detector.detect_language`: empty or whitespace-only text
is `unknown`; else the Devanagari-codepoint fallback decides between
`hindi` and `english`.  The optional `langdetect` statistical
classifier is an absent external collaborator (see header). -/
def detect_language (text : List Char) : String :=
  if strip text = [] then "unknown"
  else if text.any isDev then "hindi"
  else "english"

/-- `language_detector.clean_hindi`: lower, keep only the Devanagari
block and whitespace (`[^ऀ-ॿ\s]` becomes a space), collapse
whitespace, strip. -/
def clean_hindi (text : List Char) : List Char :=
  cleanWith isDev text

/-- `language_detector.clean_english`: lower, keep only `\w` and
whitespace (`[^\w\s]` becomes a space), collapse whitespace, strip. -/
def clean_english (text : List Char) : List Char :=
  cleanWith isWordChar text

/-- `language_detector.normalize_text`: dispatch on the detected
language (`startswith("hindi")`). -/
def normalize_text (text : List Char) : List Char :=
  if isPrefixL "hindi".toList (detect_language text).toList then clean_hindi text
  else clean_english text

end LanguageDetector

namespace RiskEngine

/-- `risk_engine.clean_hindi`: lower, keep Devanagari, whitespace and
digits (`[^ऀ-ॿ\s0-9]` becomes a space), collapse, strip. -/
def clean_hindi (text : List Char) : List Char :=
  cleanWith (fun c => isDev c || isDigitB c) text

/-- `risk_engine.clean_english`: lower, keep `a-z`, `0-9` and
whitespace (`[^a-z0-9\s]` becomes a space), collapse, strip. -/
def clean_english (text : List Char) : List Char :=
  cleanWith (fun c => isLowerAlpha c || isDigitB c) text

/-- `risk_engine.is_hindi`: the text contains a Devanagari codepoint. -/
def is_hindi (text : List Char) : Bool :=
  text.any isDev

/-- `risk_engine.normalize_text`. -/
def normalize_text (text : List Char) : List Char :=
  if text = [] then []
  else if is_hindi text then clean_hindi text
  else clean_english text

/-- The weighted keyword checks of `risk_engine.analyze_risk`, in
source order: each entry is (condition, weight, reason). -/
def riskChecks (clause : List Char) : List (Bool × Nat × String) :=
  let hi := clean_hindi clause
  let en := clean_english clause
  [ (subStr "असीमित" hi && subStr "दायित्व" hi, 4, "असीमित दायित्व"),
    (subStr "क्षतिपूर्ति" hi, 4, "पूर्ण क्षतिपूर्ति"),
    (subStr "एकतरफा" hi && (subStr "बिना" hi || subStr "सूचना" hi), 4, "एकतरफा समाप्ति"),
    (subStr "भुगतान" hi && (subStr "रोक" hi || subStr "अस्वीकृत" hi), 4, "भुगतान रोका जाना"),
    (subStr "दावा" hi && (subStr "परित्याग" hi || subStr "नहीं" hi), 4, "भविष्य के दावों का परित्याग"),
    (subStr "unlimited liability" en, 4, "Unlimited liability"),
    (subStr "indemnify" en, 4, "Broad indemnity obligation"),
    (subStr "terminate at any time" en, 4, "Unilateral termination"),
    (subStr "without notice" en, 3, "Termination without notice"),
    (subStr "penalty" en && subStr "breach" en, 3, "Penalty on breach"),
    (subStr "गोपनीय" hi, 2, "गोपनीयता दायित्व"),
    (subStr "confidential" en, 2, "Confidentiality obligation"),
    (subStr "विवाद" hi, 2, "विवाद समाधान क्लॉज"),
    (subStr "dispute" en, 2, "Dispute resolution clause") ]

/-- The running `risk_score` accumulated by `risk_engine.analyze_risk`
on the non-short path. -/
def analyze_risk_score (clause : List Char) : Nat :=
  ((riskChecks clause).filter (·.1)).foldl (fun a p => a + p.2.1) 0

/-- The `reasons` list accumulated by `risk_engine.analyze_risk`. -/
def analyze_risk_reasons (clause : List Char) : List String :=
  ((riskChecks clause).filter (·.1)).map (·.2.2)

/-- `risk_engine.analyze_risk`: short clauses (trimmed length < 30)
short-circuit to Low with a fixed explanation; otherwise the weighted
keyword scoring decides High (score ≥ 6), Medium (score ≥ 3) or Low.
Returns (risk_level, explanation). -/
def analyze_risk (clause : List Char) : String × String :=
  if clause = [] ∨ (strip clause).length < 30 then
    ("Low", "यह केवल शीर्षक या अधूरा क्लॉज है।")
  else
    let score := analyze_risk_score clause
    if 6 ≤ score then
      ("High", "उच्च जोखिम: " ++ String.intercalate ", " (analyze_risk_reasons clause))
    else if 3 ≤ score then
      ("Medium", "मध्यम जोखिम: समीक्षा आवश्यक।")
    else
      ("Low", "कोई गंभीर कानूनी जोखिम नहीं मिला।")

end RiskEngine

namespace Utils

/-- `utils.CONTRACT_KEYWORDS_EN`. -/
def CONTRACT_KEYWORDS_EN : List String :=
  [ "party", "agreement", "term", "terminate", "liability", "indemnify",
    "governing law", "jurisdiction", "confidential", "warranty", "payment",
    "deliverable", "service", "termination", "notice", "compensation", "contract" ]

/-- `utils.CONTRACT_KEYWORDS_HI`. -/
def CONTRACT_KEYWORDS_HI : List String :=
  [ "अनुबंध", "समझौता", "दायित्व", "क्षतिपूर्ति",
    "समाप्ति", "उल्लंघन", "पक्ष", "भुगतान",
    "गोपनीयता", "न्यायालय", "कानूनी", "समझौता अवधि" ]

/-- `utils.HIGH_RISK_KEYWORDS_EN`. -/
def HIGH_RISK_KEYWORDS_EN : List String :=
  [ "unlimited liability", "without limitation", "terminate at any time",
    "without notice", "no compensation", "indemnify", "hold harmless",
    "assign all rights", "sole discretion", "irrevocable" ]

/-- `utils.MEDIUM_RISK_KEYWORDS_EN`. -/
def MEDIUM_RISK_KEYWORDS_EN : List String :=
  [ "governing law", "jurisdiction", "terminate", "liability",
    "compensation", "penalty", "liquidated damages",
    "auto-renew", "renewal", "lock-in" ]

/-- `utils.HIGH_RISK_KEYWORDS_HI`. -/
def HIGH_RISK_KEYWORDS_HI : List String :=
  [ "असीमित दायित्व", "पूर्ण क्षतिपूर्ति", "एकतरफा समाप्ति",
    "भुगतान रोका", "भविष्य के दावों का परित्याग" ]

/-- `utils.MEDIUM_RISK_KEYWORDS_HI`. -/
def MEDIUM_RISK_KEYWORDS_HI : List String :=
  [ "विवाद", "न्यायालय", "गोपनीयता", "दंड", "कानूनी" ]

/-- The obligation pattern of `utils.analyze_clause_risk`,
`re.findall(r'\\bshall\\b|\\bmust\\b|\\bagree to\\b', c)`.
Because the pattern is written with doubled backslashes inside a raw
string, the regex alternatives are the LITERAL nine-, eight- and
eleven-character strings `\bshall\b`, `\bmust\b` and `\bagree to\b`
(each containing real backslash characters), not word-boundary
matches.  This counts the non-overlapping left-to-right matches;
`skip` deletes characters already consumed by a previous match. -/
def oblAux : Nat → List Char → Nat
  | skip + 1, _ :: rest => oblAux skip rest
  | _, [] => 0
  | 0, c :: rest =>
    if isPrefixL "\\bshall\\b".toList (c :: rest) then 1 + oblAux 8 rest
    else if isPrefixL "\\bmust\\b".toList (c :: rest) then 1 + oblAux 7 rest
    else if isPrefixL "\\bagree to\\b".toList (c :: rest) then 1 + oblAux 10 rest
    else oblAux 0 rest

/-- `len(re.findall(r'\\bshall\\b|\\bmust\\b|\\bagree to\\b', c))`. -/
def countObl (c : List Char) : Nat := oblAux 0 c

/-- The keywords of `kws` occurring as substrings of `c`, in table
order (each loop iteration appends the matched keyword). -/
def kwHits (kws : List String) (c : List Char) : List String :=
  kws.filter (fun k => subStr k c)

/-- `utils.analyze_clause_risk`: normalize the clause
(`language_detector.normalize_text`), add 3 per English high-risk
keyword in the normalized text, 1 per English medium-risk keyword,
3 per Hindi high-risk keyword in the RAW clause, 1 per Hindi
medium-risk keyword in the raw clause; the obligation heuristic adds 1
when the (broken, see `oblAux`) pattern finds ≥ 3 matches and
"payment" is absent.  Tier: score ≥ 5 High, ≥ 2 Medium, else Low.
Returns (label, reasons string, score). -/
def analyze_clause_risk (clause : List Char) : String × String × Nat :=
  let c := LanguageDetector.normalize_text clause
  let hiEn := kwHits HIGH_RISK_KEYWORDS_EN c
  let medEn := kwHits MEDIUM_RISK_KEYWORDS_EN c
  let hiHi := kwHits HIGH_RISK_KEYWORDS_HI clause
  let medHi := kwHits MEDIUM_RISK_KEYWORDS_HI clause
  let pen := 3 ≤ countObl c && !(subStr "payment" c)
  let score := 3 * hiEn.length + medEn.length + 3 * hiHi.length + medHi.length
    + (if pen then 1 else 0)
  let reasons := hiEn ++ medEn ++ hiHi ++ medHi
    ++ (if pen then ["many obligations without payment"] else [])
  let label := if 5 ≤ score then "High" else if 2 ≤ score then "Medium" else "Low"
  let csv := if reasons = [] then "No strong risk indicators detected."
    else String.intercalate ", " reasons
  (label, csv, score)

/-- The structure signal `re.search(r"\\d+\\.", t)` of
`utils.looks_like_contract`.  Doubled backslashes in the raw string
make the regex match a literal backslash, one or more letters `d`, a
literal backslash, then any character except newline. -/
def brokenNumPat : List Char → Bool
  | [] => false
  | c :: rest =>
    (c == '\\' && !(rest.takeWhile (· == 'd')).isEmpty &&
      (match rest.drop (rest.takeWhile (· == 'd')).length with
        | '\\' :: e :: _ => e != '\n'
        | _ => false))
    || brokenNumPat rest

/-- `utils.looks_like_contract`: trimmed length ≥ 80 required; +1 per
contract keyword of the detected language found in the lowercased
text; the three structure signals are the regexes
`r"\\d+\\."`, `r"\\bclause\\b|\\bsection\\b"` and
`r"\\bparty\\b|\\bparties\\b"`, whose doubled backslashes make them
match only literal backslash sequences; returns score ≥ 2. -/
def looks_like_contract (text : List Char) : Bool :=
  if text = [] ∨ (strip text).length < 80 then false
  else
    let lang := LanguageDetector.detect_language text
    let t := text.map lowerChar
    let kws := if isPrefixL "hi".toList lang.toList then CONTRACT_KEYWORDS_HI
      else CONTRACT_KEYWORDS_EN
    let score := (kws.filter (fun k => hasSub (k.toList.map lowerChar) t)).length
    let s1 := if brokenNumPat t then 1 else 0
    let s2 := if subStr "\\bclause\\b" t || subStr "\\bsection\\b" t then 1 else 0
    let s3 := if subStr "\\bparty\\b" t || subStr "\\bparties\\b" t then 1 else 0
    decide (2 ≤ score + s1 + s2 + s3)

set_option linter.unusedVariables false in
/-- `utils.suggest_alternatives_for_clause`: a pure lookup on
(risk label, phrase present in the lowercased clause or, for Hindi
phrases, in the raw clause).  The `reasons` argument is accepted but
never read, exactly as in the source. -/
def suggest_alternatives_for_clause (clause : List Char) (risk_label : String)
    (reasons : String) : Option String :=
  let c := clause.map lowerChar
  if risk_label == "High" &&
      (subStr "indemnif" c || subStr "hold harmless" c || subStr "क्षतिपूर्ति" clause) then
    some "Limit indemnity to direct damages and cap liability to contract value."
  else if risk_label == "High" &&
      (subStr "unlimited liability" c || subStr "असीमित दायित्व" clause) then
    some "Add a liability cap and exclude indirect damages."
  else if risk_label == "High" &&
      (subStr "terminate at any time" c || subStr "एकतरफा समाप्ति" clause) then
    some "Add notice period and cure period."
  else if risk_label == "Medium" &&
      (subStr "jurisdiction" c || subStr "न्यायालय" clause) then
    some "Specify neutral arbitration location within India."
  else
    none

end Utils

namespace ClauseExtractor

/-- `re.sub(r'\r\n?', '\n', text)`: every `\r\n` pair and every lone
`\r` becomes a single `\n`. -/
def crSub : List Char → List Char
  | [] => []
  | [c] => [if c = '\r' then '\n' else c]
  | c :: d :: rest =>
    if c = '\r' then
      if d = '\n' then '\n' :: crSub rest else '\n' :: crSub (d :: rest)
    else c :: crSub (d :: rest)

/-- Worker for `blankSub`.  A nonzero first argument deletes
characters already emitted as part of the current whitespace run. -/
def blankAux : Nat → List Char → List Char
  | skip + 1, _ :: rest => blankAux skip rest
  | _, [] => []
  | 0, c :: rest =>
    if isSpaceB c then
      (if 2 ≤ (c :: rest.takeWhile isSpaceB).count '\n' then ['\n', '\n']
       else c :: rest.takeWhile isSpaceB)
      ++ blankAux (rest.takeWhile isSpaceB).length rest
    else c :: blankAux 0 rest

/-- `re.sub(r'\s*\n\s*\n\s*', '\n\n', t)`: every maximal whitespace
run containing at least two newlines is replaced by exactly `\n\n`
(the greedy pattern always consumes the whole run); other runs are
kept verbatim. -/
def blankSub (l : List Char) : List Char := blankAux 0 l

/-- Worker for `dandaSub`; nonzero first argument deletes the
whitespace following an already-rewritten danda. -/
def dandaAux : Nat → List Char → List Char
  | skip + 1, _ :: rest => dandaAux skip rest
  | _, [] => []
  | 0, c :: rest =>
    if c = '।' then '।' :: '\n' :: dandaAux (rest.takeWhile isSpaceB).length rest
    else c :: dandaAux 0 rest

/-- `re.sub(r'([।।])\s*', r'\1\n', t)`: each Hindi danda keeps itself,
gains a newline, and swallows the whitespace that followed it. -/
def dandaSub (l : List Char) : List Char := dandaAux 0 l

/-- The preprocessed text `t` of `clause_extractor.extract_clauses`. -/
def preprocess (text : List Char) : List Char :=
  dandaSub (blankSub (crSub text))

/-- Delimiters `[.)–—-]` of the numbered-item pattern. -/
def isDelim (c : Char) : Bool :=
  c == '.' || c == ')' || c == '–' || c == '—' || c == '-'

/-- Roman-numeral characters `[IVXLCDM]`. -/
def isRoman (c : Char) : Bool :=
  c == 'I' || c == 'V' || c == 'X' || c == 'L' || c == 'C' || c == 'D' || c == 'M'

/-- A delimiter followed by at least one whitespace character
(`[.)–—-]\s+`). -/
def delimWS : List Char → Bool
  | c :: d :: _ => isDelim c && isSpaceB d
  | _ => false

/-- `(?:\d{1,2}|[IVXLCDM]+)[.)–—-]\s+` at the head of the list: one or
two digits, or a nonempty roman-numeral run, then a delimiter and
whitespace.  (Delimiters are neither digits nor roman characters, so
the greedy runs never backtrack partially.) -/
def numCoreB (l : List Char) : Bool :=
  (match l with
    | a :: rest =>
      isDigitB a &&
        ((match rest with
          | b :: _ => isDigitB b && delimWS rest.tail
          | [] => false)
         || delimWS rest)
    | [] => false)
  || (!(l.takeWhile isRoman).isEmpty && delimWS (l.drop (l.takeWhile isRoman).length))

/-- The zero-width split pattern
`(?=(?:^|\s)(?:\d{1,2}|[IVXLCDM]+)[.)–—-]\s+)` holds at some interior
position: a whitespace character with `numCoreB` right after it.
(The `^` alternative, possible only at position 0, is checked by
`split_numbered` itself.) -/
def hasNumTok : List Char → Bool
  | [] => false
  | c :: rest => (isSpaceB c && numCoreB rest) || hasNumTok rest

/-- Worker for `split_numbered`: cut immediately before each position
whose lookahead matches.  `acc` is the reversed current piece. -/
def splitNumAux (acc : List Char) : List Char → List (List Char)
  | [] => [acc.reverse]
  | c :: rest =>
    if isSpaceB c && numCoreB rest then acc.reverse :: splitNumAux [c] rest
    else splitNumAux (c :: acc) rest

/-- `re.split(numbered_split, t)` with the zero-width lookahead
pattern above; a match at position 0 (the `^` branch) contributes a
leading empty piece, as in Python. -/
def split_numbered (l : List Char) : List (List Char) :=
  if l = [] then [[]]
  else if numCoreB l then [] :: splitNumAux [] l
  else splitNumAux [] l

/-- `\d+[.)]`: a nonempty digit run followed by `.` or `)`. -/
def fbDigits (l : List Char) : Bool :=
  !(l.takeWhile isDigitB).isEmpty &&
    (match l.drop (l.takeWhile isDigitB).length with
      | c :: _ => c == '.' || c == ')'
      | [] => false)

/-- `\s*[A-Z][.)]\s`: optional whitespace, an uppercase letter, `.` or
`)`, then a whitespace character. -/
def fbLetter (l : List Char) : Bool :=
  match l.drop (l.takeWhile isSpaceB).length with
  | a :: c :: d :: _ => isUpperAlpha a && (c == '.' || c == ')') && isSpaceB d
  | _ => false

/-- The lookahead of the fallback split `(?=\d+[.)]|\s*[A-Z][.)]\s)`. -/
def fbLook (l : List Char) : Bool :=
  fbDigits l || fbLetter l

/-- Worker for `split_fallback`.  A cut happens at each maximal run of
two or more newlines whose end satisfies `fbLook`; the run itself is
consumed (deleted via the skip counter). -/
def fbAux : Nat → List Char → List Char → List (List Char)
  | skip + 1, acc, _ :: rest => fbAux skip acc rest
  | _, acc, [] => [acc.reverse]
  | 0, acc, c :: rest =>
    if c = '\n' && !(rest.takeWhile (· == '\n')).isEmpty &&
        fbLook (rest.drop (rest.takeWhile (· == '\n')).length) then
      acc.reverse :: fbAux (rest.takeWhile (· == '\n')).length [] rest
    else fbAux 0 (c :: acc) rest

/-- `re.split(r'\n{2,}(?=\d+[.)]|\s*[A-Z][.)]\s)', t)`. -/
def split_fallback (l : List Char) : List (List Char) := fbAux 0 [] l

/-- Worker for `re.sub(r'<[^>]+>', '', c)`: remove every complete
angle-bracket tag (a `<`, at least one non-`>` character, then `>`). -/
def tagAux1 : Nat → List Char → List Char
  | skip + 1, _ :: rest => tagAux1 skip rest
  | _, [] => []
  | 0, c :: rest =>
    if c = '<' && !(rest.takeWhile (· != '>')).isEmpty &&
        (rest.takeWhile (· != '>')).length < rest.length then
      tagAux1 ((rest.takeWhile (· != '>')).length + 1) rest
    else c :: tagAux1 0 rest

/-- Worker for `re.sub(r'</?[^>]*', '', c)`: remove every `<` and all
following characters up to (not including) the next `>` or the end of
the string.  (The optional `/` of the pattern is itself a non-`>`
character, so the greedy `[^>]*` makes the match span from the `<` to
the next `>` in every case.) -/
def tagAux2 : Nat → List Char → List Char
  | skip + 1, _ :: rest => tagAux2 skip rest
  | _, [] => []
  | 0, c :: rest =>
    if c = '<' then tagAux2 (rest.takeWhile (· != '>')).length rest
    else c :: tagAux2 0 rest

/-- The final cleanup applied to each accepted clause: strip complete
tags, strip open tag fragments, collapse whitespace, trim. -/
def finalClean (c : List Char) : List Char :=
  strip (squeeze (tagAux2 0 (tagAux1 0 c)))

/-- The keyword gate
`re.search(r'\b(sh all|must|liability|terminate|indemn|payment|party|breach|confidential|unlimited|sole discretion)\b', cleaned, re.I)`
(note the source's literal `sh all`).  Word boundaries are modelled
with `isWordChar`; matching is case-insensitive. -/
def gateWords : List String :=
  [ "sh all", "must", "liability", "terminate", "indemn", "payment",
    "party", "breach", "confidential", "unlimited", "sole discretion" ]

/-- The word `w` (given lowercase) occurs at the head of `l`
case-insensitively, with a word boundary after it. -/
def wordHere (w : String) (l : List Char) : Bool :=
  isPrefixL w.toList (l.map lowerChar) &&
    (match l.drop w.length with
      | [] => true
      | d :: _ => !isWordChar d)

/-- Scan for a `\b`-delimited, case-insensitive occurrence of one of
`gateWords`.  `prev` is the character before the current position. -/
def gateEnAux : Option Char → List Char → Bool
  | _, [] => false
  | prev, c :: rest =>
    ((match prev with
       | none => true
       | some p => !isWordChar p)
      && gateWords.any (fun w => wordHere w (c :: rest)))
    || gateEnAux (some c) rest

/-- The English keyword gate of `extract_clauses`. -/
def gateEn (l : List Char) : Bool := gateEnAux none l

/-- The Hindi keyword gate
`re.search(r'(दायित्व|क्षतिपूर्ति|समाप्ति|भुगतान|गोपनीयता|अनुबंध|पक्ष|उत्तरदायी|दंड|विवाद)', cleaned)`:
a plain substring search. -/
def gateHi (l : List Char) : Bool :=
  [ "दायित्व", "क्षतिपूर्ति", "समाप्ति", "भुगतान", "गोपनीयता",
    "अनुबंध", "पक्ष", "उत्तरदायी", "दंड", "विवाद" ].any (fun w => subStr w l)

/-- `clause_extractor.extract_clauses`: guard, preprocess, numbered
split with length/content gates, blank-line fallback split, final
cleanup with the > 70 acceptance filter, whole-document fallback. -/
def extract_clauses (text : List Char) : List (List Char) :=
  if text = [] ∨ (strip text).length < 50 then []
  else
    let t := preprocess text
    let parts := split_numbered t
    let clauses := parts.filterMap (fun part =>
      let cleaned := strip part
      if cleaned = [] then none
      else if cleaned.length < 60 then none
      else if !Utils.looks_like_contract cleaned && !gateEn cleaned && !gateHi cleaned then none
      else some cleaned)
    let clauses2 :=
      if clauses.length ≤ 1 then
        (split_fallback t).filterMap (fun p =>
          if 80 < (strip p).length then some (strip p) else none)
      else clauses
    let final := clauses2.filterMap (fun c =>
      if 70 < (finalClean c).length then some (finalClean c) else none)
    if final = [] then [strip t] else final

/-- `c` contains a whitespace character followed, after possible
further non-newline whitespace, by another newline: the shape of a
blank line.  Used to state "the text has no blank lines". -/
def hasTwoNL : List Char → Bool
  | [] => false
  | c :: rest =>
    (c == '\n' && (rest.dropWhile (fun d => isSpaceB d && d != '\n')).headD 'x' == '\n')
    || hasTwoNL rest

/-- Two adjacent newline characters occur in the list. -/
def hasNN : List Char → Bool
  | [] => false
  | [_] => false
  | a :: b :: rest => (a == '\n' && b == '\n') || hasNN (b :: rest)

end ClauseExtractor

/-- The character invariant maintained by `cleanWith good`: every
character of the output is either a plain space or a kept character of
the class `good` that is fixed by lowercasing and is not whitespace. -/
def goodChar (good : Char → Bool) (c : Char) : Prop :=
  (good c = true ∧ lowerChar c = c ∧ isSpaceB c = false) ∨ c = ' '

/-- No two adjacent whitespace characters: the relation threaded along
`squeeze` output. -/
def spaceRel (a b : Char) : Prop :=
  ¬(isSpaceB a = true ∧ isSpaceB b = true)

namespace Utils

/-- One of the High-tier key phrases of
`suggest_alternatives_for_clause` is present (English phrases in the
lowercased clause, Hindi phrases in the raw clause). -/
def highPhrase (clause : List Char) : Bool :=
  let c := clause.map lowerChar
  subStr "indemnif" c || subStr "hold harmless" c || subStr "क्षतिपूर्ति" clause ||
  subStr "unlimited liability" c || subStr "असीमित दायित्व" clause ||
  subStr "terminate at any time" c || subStr "एकतरफा समाप्ति" clause

/-- The Medium-tier key phrase of `suggest_alternatives_for_clause` is
present. -/
def medPhrase (clause : List Char) : Bool :=
  subStr "jurisdiction" (clause.map lowerChar) || subStr "न्यायालय" clause

end Utils

/-- A clause scoring exactly 5 in `risk_engine.analyze_risk`:
"without notice" contributes 3 and "confidential" contributes 2. -/
def scoreFiveClause : String :=
  "the company may terminate the services without notice and keep all data confidential forever"

/-- A clause scoring exactly 5 in `utils.analyze_clause_risk`:
"indemnify" contributes 3, "jurisdiction" and "renewal" 1 each. -/
def utilsFiveClause : String :=
  "the vendor shall indemnify upon renewal under this jurisdiction"

/-- A clause scoring exactly 2 in `utils.analyze_clause_risk`. -/
def utilsTwoClause : String := "renewal and jurisdiction apply here"

/-- A clause scoring exactly 1 in `utils.analyze_clause_risk`. -/
def utilsOneClause : String := "renewal period applies here"

/-- A clause with three occurrences of "shall" and no payment term:
the spec's obligation heuristic should add its penalty here. -/
def manyShallClause : String :=
  "the supplier shall deliver goods and the client shall inspect them and both sides shall cooperate fully"

/-- 55 characters, no numbering, no punctuation: long enough for the
segmenter to run, too short for every acceptance filter, so the
whole-document fallback returns it as the single clause. -/
def shortDocText : String := "aaaaaaaaaaaaaaaaaaaaaaaaaaaaaaaaaaaaaaaaaaaaaaaaaaaaaaa"

/-- A 119-character single-line text containing one doubled space
("records  produced"): the segmenter's final cleanup collapses it, so
the returned clause differs from the trimmed input. -/
def doubleSpaceText : String :=
  "the supplier agrees that the client retains ownership of all working papers and records  produced during the engagement"

/-- The whitespace-collapsed form of `doubleSpaceText`. -/
def doubleSpaceCollapsed : String :=
  "the supplier agrees that the client retains ownership of all working papers and records produced during the engagement"

/-- A 94-character single-line text with single spaces only: the
segmenter returns it verbatim as one clause. -/
def singleClauseText : String :=
  "the supplier agrees that the client retains ownership of all deliverable records produced here"

/-- Three long sentences separated by ". ", no numbered items, no
blank lines: the spec's sentence-split stage would return three
clauses, the code returns the whole text as one clause. -/
def threeSentenceText : String :=
  "the first sentence describes the obligations of the supplier in considerable detail for everyone. the second sentence describes the duties of the client in considerable detail for everyone. the third sentence describes the remedies available to both sides in considerable detail for everyone."

/-- Two long paragraphs separated by a blank line, the second opening
with the lettered marker "A) ": the blank-line fallback split of
`extract_clauses` separates them. -/
def twoParaText : String :=
  "the first paragraph describes the obligations of the supplier in considerable detail for everyone\n\nA) the second paragraph describes the duties of the client in considerable detail for everyone"

/-- First clause extracted from `twoParaText`. -/
def twoParaFirst : String :=
  "the first paragraph describes the obligations of the supplier in considerable detail for everyone"

/-- Second clause extracted from `twoParaText`. -/
def twoParaSecond : String :=
  "A) the second paragraph describes the duties of the client in considerable detail for everyone"

/-- A text of length ≥ 80 that contains the contract keyword
"agreement", a numbered-item pattern "1." and the word "parties": the
spec's plausibility score is 3, yet `utils.looks_like_contract`
rejects it because its structure-signal regexes are double-escaped. -/
def contractLikeText : String :=
  "this agreement is made on 1. january between the parties named below for mutual benefit today"

/-! ## General lemmas about the text primitives

The lemmas below establish the invariant satisfied by the output of
the shared cleaning shape `cleanWith` (all characters kept or single
spaces, no space runs, trimmed ends), and that `cleanWith` is the
identity on lists satisfying the invariant — hence idempotent. -/

theorem mapIdOn {α : Type} (f : α → α) :
    ∀ l : List α, (∀ c ∈ l, f c = c) → l.map f = l := by
  intro l h
  induction l with
  | nil => rfl
  | cons a tl ih =>
    simp only [List.map_cons]
    rw [h a (by simp), ih (fun c hc => h c (by simp [hc]))]

theorem head?_dropWhile_not (p : Char → Bool) :
    ∀ l : List Char, ∀ a, (List.dropWhile p l).head? = some a → p a = false := by
  intro l
  induction l with
  | nil => intro a h; simp [List.dropWhile] at h
  | cons c rest ih =>
    intro a h
    rw [List.dropWhile_cons] at h
    by_cases hc : p c
    · rw [if_pos hc] at h; exact ih a h
    · rw [if_neg hc] at h
      simp only [List.head?_cons, Option.some.injEq] at h
      subst h
      exact Bool.eq_false_iff.mpr hc

theorem prefix_head? {α : Type} {X Y : List α} (h : X <+: Y) (hne : X ≠ []) :
    X.head? = Y.head? := by
  obtain ⟨t, rfl⟩ := h
  cases X with
  | nil => exact absurd rfl hne
  | cons a tl => rfl

theorem mem_strip {c : Char} {l : List Char} (h : c ∈ strip l) : c ∈ l := by
  unfold strip at h
  have h1 : c ∈ l.dropWhile isSpaceB :=
    (List.rdropWhile_prefix isSpaceB _).sublist.mem h
  exact (List.dropWhile_suffix isSpaceB).sublist.mem h1

theorem strip_length_le (l : List Char) : (strip l).length ≤ l.length :=
  le_trans ((List.rdropWhile_prefix isSpaceB _).length_le)
    ((List.dropWhile_suffix isSpaceB).length_le)

theorem strip_head?_not (l : List Char) :
    ∀ a, (strip l).head? = some a → isSpaceB a = false := by
  intro a h
  have hne : strip l ≠ [] := by
    intro he; rw [he] at h; simp at h
  unfold strip at h hne
  have := prefix_head? (List.rdropWhile_prefix isSpaceB (l.dropWhile isSpaceB)) hne
  rw [this] at h
  exact head?_dropWhile_not isSpaceB l a h

theorem strip_getLast?_not (l : List Char) :
    ∀ a, (strip l).getLast? = some a → isSpaceB a = false := by
  intro a h
  have hne : strip l ≠ [] := by
    intro he; rw [he] at h; simp at h
  have hlast := List.rdropWhile_last_not isSpaceB (l.dropWhile isSpaceB) hne
  rw [List.getLast?_eq_getLast _ hne] at h
  simp only [Option.some.injEq] at h
  subst h
  exact Bool.eq_false_iff.mpr hlast

theorem strip_eq_self {l : List Char}
    (h1 : ∀ a, l.head? = some a → isSpaceB a = false)
    (h2 : ∀ a, l.getLast? = some a → isSpaceB a = false) :
    strip l = l := by
  unfold strip
  have hd : l.dropWhile isSpaceB = l := by
    cases l with
    | nil => rfl
    | cons c rest =>
      rw [List.dropWhile_cons, if_neg]
      simp [h1 c rfl]
  rw [hd]
  rw [List.rdropWhile_eq_self_iff]
  intro hl
  have := h2 (l.getLast hl) (List.getLast?_eq_getLast _ hl)
  simp [this]

theorem strip_idem (l : List Char) : strip (strip l) = strip l :=
  strip_eq_self (strip_head?_not l) (strip_getLast?_not l)

theorem squeeze_mem :
    ∀ l : List Char, ∀ c ∈ squeeze l, c = ' ' ∨ (c ∈ l ∧ isSpaceB c = false) := by
  intro l
  induction l with
  | nil => intro c hc; simp [squeeze] at hc
  | cons a tl ih =>
    cases tl with
    | nil =>
      intro c hc
      simp only [squeeze, List.mem_singleton] at hc
      subst hc
      by_cases ha : isSpaceB a
      · left; simp [ha]
      · right
        constructor
        · simp [ha]
        · simp only [if_neg ha]; exact Bool.eq_false_iff.mpr ha
    | cons b tl2 =>
      intro c hc
      rw [squeeze] at hc
      by_cases hab : isSpaceB a && isSpaceB b
      · rw [if_pos hab] at hc
        rcases ih c hc with h | ⟨h1, h2⟩
        · left; exact h
        · right; exact ⟨List.mem_cons_of_mem a h1, h2⟩
      · rw [if_neg hab] at hc
        rcases List.mem_cons.mp hc with h | h
        · by_cases ha : isSpaceB a
          · left; rw [h]; simp [ha]
          · right
            rw [h, if_neg ha]
            exact ⟨List.mem_cons_self a _, Bool.eq_false_iff.mpr ha⟩
        · rcases ih c h with h' | ⟨h1, h2⟩
          · left; exact h'
          · right; exact ⟨List.mem_cons_of_mem a h1, h2⟩

theorem squeeze_head?_notspace {b : Char} (rest : List Char) (hb : isSpaceB b = false) :
    (squeeze (b :: rest)).head? = some b := by
  cases rest with
  | nil => simp [squeeze, hb]
  | cons c tl => simp [squeeze, hb]

theorem squeeze_head?_space :
    ∀ (rest : List Char) (b : Char), isSpaceB b = true →
      (squeeze (b :: rest)).head? = some ' ' := by
  intro rest
  induction rest with
  | nil => intro b hb; simp [squeeze, hb]
  | cons c tl ih =>
    intro b hb
    rw [squeeze]
    by_cases hc : isSpaceB c
    · rw [if_pos (by simp [hb, hc])]
      exact ih c hc
    · rw [if_neg (by simp [hc])]
      simp [hb]

theorem squeeze_chain : ∀ l : List Char, List.Chain' spaceRel (squeeze l) := by
  intro l
  induction l with
  | nil => simp [squeeze]
  | cons a tl ih =>
    cases tl with
    | nil => simp [squeeze]
    | cons b tl2 =>
      rw [squeeze]
      by_cases hab : isSpaceB a && isSpaceB b
      · rw [if_pos hab]; exact ih
      · rw [if_neg hab]
        rw [List.chain'_cons']
        refine ⟨?_, ih⟩
        intro h hh
        by_cases ha : isSpaceB a
        · have hb : isSpaceB b = false := by
            rcases Bool.and_eq_false_iff.mp (Bool.eq_false_iff.mpr hab) with h' | h'
            · exact absurd h' (by simp [ha])
            · exact h'
          rw [squeeze_head?_notspace tl2 hb, Option.mem_def] at hh
          injection hh with hh
          subst hh
          intro hcon
          rw [hb] at hcon
          exact Bool.false_ne_true hcon.2
        · intro hcon
          rw [if_neg ha] at hcon
          rw [Bool.eq_false_iff.mpr ha] at hcon
          exact Bool.false_ne_true hcon.1

theorem squeeze_eq_self :
    ∀ l : List Char, (∀ c ∈ l, isSpaceB c = true → c = ' ') →
      List.Chain' spaceRel l → squeeze l = l := by
  intro l
  induction l with
  | nil => intro _ _; rfl
  | cons a tl ih =>
    cases tl with
    | nil =>
      intro h _
      by_cases ha : isSpaceB a
      · simp only [squeeze, if_pos ha]
        rw [h a (List.mem_cons_self a _) ha]
      · simp [squeeze, ha]
    | cons b tl2 =>
      intro h hch
      rw [squeeze]
      have hrel : spaceRel a b := (List.chain'_cons.mp hch).1
      have hab : (isSpaceB a && isSpaceB b) = false := by
        by_cases ha : isSpaceB a
        · by_cases hb : isSpaceB b
          · exact absurd ⟨ha, hb⟩ hrel
          · simp [hb]
        · simp [ha]
      rw [if_neg (by simp [hab])]
      have htl : squeeze (b :: tl2) = b :: tl2 :=
        ih (fun c hc hsp => h c (List.mem_cons_of_mem a hc) hsp)
          (List.chain'_cons.mp hch).2
      rw [htl]
      by_cases ha : isSpaceB a
      · rw [if_pos ha, h a (List.mem_cons_self a _) ha]
      · rw [if_neg ha]

theorem mem_squeeze_of_not_space {x : Char} :
    ∀ l : List Char, x ∈ l → isSpaceB x = false → x ∈ squeeze l := by
  intro l
  induction l with
  | nil => intro h _; simp at h
  | cons a tl ih =>
    cases tl with
    | nil =>
      intro h hx
      simp only [List.mem_singleton] at h
      subst h
      simp [squeeze, hx]
    | cons b tl2 =>
      intro h hx
      rw [squeeze]
      by_cases hab : isSpaceB a && isSpaceB b
      · rw [if_pos hab]
        rcases List.mem_cons.mp h with h' | h'
        · subst h'
          exact absurd (by simp at hab; exact hab.1) (by simp [hx])
        · exact ih h' hx
      · rw [if_neg hab]
        rcases List.mem_cons.mp h with h' | h'
        · subst h'
          rw [if_neg (by simp [hx])]
          exact List.mem_cons_self x _
        · exact List.mem_cons_of_mem _ (ih h' hx)

theorem squeeze_length_le : ∀ l : List Char, (squeeze l).length ≤ l.length := by
  intro l
  induction l with
  | nil => simp [squeeze]
  | cons a tl ih =>
    cases tl with
    | nil => by_cases ha : isSpaceB a <;> simp [squeeze, ha]
    | cons b tl2 =>
      rw [squeeze]
      by_cases hab : isSpaceB a && isSpaceB b
      · rw [if_pos hab]
        exact le_trans ih (by simp)
      · rw [if_neg hab]
        simpa using ih

theorem lowerChar_cases (c : Char) :
    lowerChar c = c ∨
      (65 ≤ c.toNat ∧ c.toNat ≤ 90 ∧ 97 ≤ (lowerChar c).toNat ∧ (lowerChar c).toNat ≤ 122) := by
  by_cases h : 65 ≤ c.toNat ∧ c.toNat ≤ 90
  · right
    obtain ⟨h1, h2⟩ := h
    refine ⟨h1, h2, ?_, ?_⟩ <;>
      · rw [lowerChar, if_pos ⟨h1, h2⟩]
        generalize hg : c.toNat = n at h1 h2 ⊢
        interval_cases n <;> decide
  · left
    rw [lowerChar, if_neg h]

theorem lowerChar_idem (c : Char) : lowerChar (lowerChar c) = lowerChar c := by
  rcases lowerChar_cases c with h | ⟨_, _, h1, h2⟩
  · rw [h]; exact h
  · rw [lowerChar]
    rw [if_neg (by omega)]

theorem lowerChar_eq_self_of_out {c : Char} (h : ¬(65 ≤ c.toNat ∧ c.toNat ≤ 90)) :
    lowerChar c = c := by
  rw [lowerChar, if_neg h]

theorem isSpaceB_eq_false_of_big {c : Char} (h : 256 ≤ c.toNat) : isSpaceB c = false := by
  simp only [isSpaceB, Bool.or_eq_false_iff, beq_eq_false_iff_ne, ne_eq]
  refine ⟨⟨⟨⟨⟨?_, ?_⟩, ?_⟩, ?_⟩, ?_⟩, ?_⟩ <;> (rintro rfl; exact absurd h (by decide))

theorem isDev_eq_false_of_small {c : Char} (h : c.toNat < 0x900) : isDev c = false := by
  simp only [isDev, Bool.and_eq_false_iff]
  left
  simp only [decide_eq_false_iff_not, not_le]
  exact h

theorem mem_strip_of_not_space {c : Char} {l : List Char}
    (h : c ∈ l) (hc : isSpaceB c = false) : c ∈ strip l := by
  unfold strip
  have h1 : c ∈ l.dropWhile isSpaceB := by
    have := (List.takeWhile_append_dropWhile (p := isSpaceB) (l := l))
    rw [← this] at h
    rcases List.mem_append.mp h with h' | h'
    · exact absurd (List.mem_takeWhile_imp h') (by simp [hc])
    · exact h'
  unfold List.rdropWhile
  rw [List.mem_reverse]
  set Y := (l.dropWhile isSpaceB).reverse with hY
  have h2 : c ∈ Y := by rw [hY, List.mem_reverse]; exact h1
  have := (List.takeWhile_append_dropWhile (p := isSpaceB) (l := Y))
  rw [← this] at h2
  rcases List.mem_append.mp h2 with h' | h'
  · exact absurd (List.mem_takeWhile_imp h') (by simp [hc])
  · exact h'

/-- `strip l` is a contiguous slice of `l`. -/
theorem strip_slice (l : List Char) : strip l <:+: l := by
  obtain ⟨t, ht⟩ := List.rdropWhile_prefix isSpaceB (l.dropWhile isSpaceB)
  obtain ⟨s, hs⟩ := List.dropWhile_suffix (l := l) isSpaceB
  refine ⟨s, t, ?_⟩
  have h2 : strip l ++ t = List.dropWhile isSpaceB l := ht
  rw [List.append_assoc, h2, hs]

theorem cleanWith_mem (good : Char → Bool) (l : List Char) :
    ∀ c ∈ cleanWith good l, goodChar good c := by
  intro c hc
  unfold cleanWith at hc
  have h1 := mem_strip hc
  rcases squeeze_mem _ c h1 with h | ⟨hm, hsp⟩
  · right; exact h
  · left
    rcases List.mem_map.mp hm with ⟨y, hy, hmask⟩
    rcases List.mem_map.mp hy with ⟨x, _, hlow⟩
    by_cases hcond : (good y || isSpaceB y) = true
    · rw [if_pos hcond] at hmask
      subst hmask
      rcases Bool.or_eq_true_iff.mp hcond with hg | hs
      · refine ⟨hg, ?_, hsp⟩
        rw [← hlow]
        exact lowerChar_idem x
      · rw [hs] at hsp; exact absurd hsp (by simp)
    · rw [if_neg hcond] at hmask
      subst hmask
      exact absurd hsp (by simp [isSpaceB])

theorem chain'_of_slice {R : Char → Char → Prop} {l₁ l₂ : List Char}
    (h : List.Chain' R l₂) (hs : l₁ <:+: l₂) : List.Chain' R l₁ := by
  obtain ⟨s, t, rfl⟩ := hs
  have h2 : List.Chain' R (l₁ ++ t) := h.suffix ⟨s, by rw [List.append_assoc]⟩
  have h3 := List.Chain'.take h2 l₁.length
  rwa [List.take_left] at h3

theorem cleanWith_chain (good : Char → Bool) (l : List Char) :
    List.Chain' spaceRel (cleanWith good l) :=
  chain'_of_slice (squeeze_chain _) (strip_slice _)

theorem cleanWith_head?_not (good : Char → Bool) (l : List Char) :
    ∀ a, (cleanWith good l).head? = some a → isSpaceB a = false :=
  strip_head?_not _

theorem cleanWith_getLast?_not (good : Char → Bool) (l : List Char) :
    ∀ a, (cleanWith good l).getLast? = some a → isSpaceB a = false :=
  strip_getLast?_not _

theorem cleanWith_fixed (good : Char → Bool) {l : List Char}
    (h : ∀ c ∈ l, goodChar good c)
    (hch : List.Chain' spaceRel l)
    (hh : ∀ a, l.head? = some a → isSpaceB a = false)
    (hl : ∀ a, l.getLast? = some a → isSpaceB a = false) :
    cleanWith good l = l := by
  unfold cleanWith
  have h1 : l.map lowerChar = l := by
    refine mapIdOn _ l (fun c hc => ?_)
    rcases h c hc with ⟨_, hlow, _⟩ | hsp
    · exact hlow
    · subst hsp; decide
  rw [h1]
  have h2 : l.map (fun c => if good c || isSpaceB c then c else ' ') = l := by
    refine mapIdOn _ l (fun c hc => ?_)
    rcases h c hc with ⟨hg, _, _⟩ | hsp
    · simp [hg]
    · subst hsp
      exact ite_self ' '
  rw [h2]
  have h3 : squeeze l = l := by
    refine squeeze_eq_self l (fun c hc hsp => ?_) hch
    rcases h c hc with ⟨_, _, hs⟩ | hsp'
    · rw [hs] at hsp; exact absurd hsp (by simp)
    · exact hsp'
  rw [h3]
  exact strip_eq_self hh hl

theorem cleanWith_idem (good : Char → Bool) (l : List Char) :
    cleanWith good (cleanWith good l) = cleanWith good l :=
  cleanWith_fixed good (cleanWith_mem good l) (cleanWith_chain good l)
    (cleanWith_head?_not good l) (cleanWith_getLast?_not good l)

theorem isDev_bounds {c : Char} (h : isDev c = true) :
    0x900 ≤ c.toNat ∧ c.toNat ≤ 0x97F := by
  simpa [isDev] using h

/-- A Devanagari character of `l` survives `cleanWith good` whenever
the kept class contains it. -/
theorem dev_mem_cleanWith {d : Char} {l : List Char} (hd : d ∈ l)
    (hdev : isDev d = true) (good : Char → Bool) (hg : good d = true) :
    d ∈ cleanWith good l := by
  have hb := isDev_bounds hdev
  have hfix : lowerChar d = d := lowerChar_eq_self_of_out (by omega)
  have hsp : isSpaceB d = false := isSpaceB_eq_false_of_big (by omega)
  unfold cleanWith
  have h1 : d ∈ l.map lowerChar := List.mem_map.mpr ⟨d, hd, hfix⟩
  have h2 : d ∈ (l.map lowerChar).map (fun c => if good c || isSpaceB c then c else ' ') :=
    List.mem_map.mpr ⟨d, h1, by simp [hg]⟩
  exact mem_strip_of_not_space (mem_squeeze_of_not_space _ h2 hsp) hsp

/-- If the kept class contains no Devanagari, neither does the output
of `cleanWith`. -/
theorem cleanWith_no_dev {l : List Char} (good : Char → Bool)
    (hng : ∀ c, good c = true → isDev c = false) :
    (cleanWith good l).any isDev = false := by
  rw [List.any_eq_false]
  intro c hc
  rcases cleanWith_mem good l c hc with ⟨hg, _, _⟩ | hsp
  · simp [hng c hg]
  · subst hsp; decide

theorem no_backslash_cleanWith (good : Char → Bool) (l : List Char)
    (hg : good '\\' = false) : '\\' ∉ cleanWith good l := by
  intro hm
  rcases cleanWith_mem good l _ hm with ⟨hgc, _, _⟩ | hsp
  · rw [hg] at hgc; exact Bool.false_ne_true hgc
  · exact absurd hsp (by decide)

theorem isPrefixL_cons_false {a c : Char} {as rest : List Char} (h : a ≠ c) :
    isPrefixL (a :: as) (c :: rest) = false := by
  simp [isPrefixL, h]

theorem oblAux_zero : ∀ l : List Char, '\\' ∉ l → Utils.oblAux 0 l = 0 := by
  intro l
  induction l with
  | nil => intro _; rfl
  | cons c rest ih =>
    intro h
    have hc : ('\\' : Char) ≠ c := fun he => h (he ▸ List.mem_cons_self c rest)
    have hrest : '\\' ∉ rest := fun hm => h (List.mem_cons_of_mem c hm)
    simp [Utils.oblAux, isPrefixL_cons_false hc, ih hrest]

/-- The normalized clause used by `utils.analyze_clause_risk` never
contains a backslash, whichever branch of the language dispatch ran. -/
theorem no_backslash_normalize (clause : List Char) :
    '\\' ∉ LanguageDetector.normalize_text clause := by
  unfold LanguageDetector.normalize_text
  split
  · exact no_backslash_cleanWith isDev clause (by decide)
  · exact no_backslash_cleanWith isWordChar clause (by decide)

/-! ## Claim theorems -/

/-- C4: text normalization is idempotent: for every string `x`,
`normalize (normalize x) = normalize x`, where `normalize` is the
script-aware cleaning function of `risk_engine.py` (Hindi branch keeps
Devanagari, whitespace and digits; English branch lowercases and keeps
alphanumerics; both collapse whitespace runs and trim the ends). -/
theorem C4_normalize_text_idempotent (x : List Char) :
    RiskEngine.normalize_text (RiskEngine.normalize_text x) = RiskEngine.normalize_text x := by
  by_cases hx : x = []
  · subst hx; rfl
  · by_cases hh : RiskEngine.is_hindi x = true
    · have hy : RiskEngine.normalize_text x = RiskEngine.clean_hindi x := by
        unfold RiskEngine.normalize_text
        rw [if_neg hx, if_pos hh]
      rw [hy]
      by_cases hz : RiskEngine.clean_hindi x = []
      · rw [hz]; rfl
      · obtain ⟨d, hd, hdev⟩ := List.any_eq_true.mp hh
        have hmem : d ∈ RiskEngine.clean_hindi x :=
          dev_mem_cleanWith hd hdev _ (by simp [hdev])
        have hh2 : RiskEngine.is_hindi (RiskEngine.clean_hindi x) = true := by
          unfold RiskEngine.is_hindi
          rw [List.any_eq_true]
          exact ⟨d, hmem, hdev⟩
        unfold RiskEngine.normalize_text
        rw [if_neg hz, if_pos hh2]
        exact cleanWith_idem _ x
    · have hh' : RiskEngine.is_hindi x = false := by
        revert hh; cases RiskEngine.is_hindi x <;> simp
      have hy : RiskEngine.normalize_text x = RiskEngine.clean_english x := by
        unfold RiskEngine.normalize_text
        rw [if_neg hx, if_neg (by simp [hh'])]
      rw [hy]
      by_cases hz : RiskEngine.clean_english x = []
      · rw [hz]; rfl
      · have hh2 : RiskEngine.is_hindi (RiskEngine.clean_english x) = false := by
          unfold RiskEngine.is_hindi RiskEngine.clean_english
          apply cleanWith_no_dev
          intro c hgc
          apply isDev_eq_false_of_small
          simp only [isLowerAlpha, isDigitB, Bool.or_eq_true, Bool.and_eq_true,
            decide_eq_true_eq] at hgc
          omega
        unfold RiskEngine.normalize_text
        rw [if_neg hz, if_neg (by simp [hh2])]
        exact cleanWith_idem _ x

set_option maxRecDepth 40000 in
/-- C2: the obligation heuristic of `utils.analyze_clause_risk` can
never fire.  Its regular expression, written with doubled backslashes,
matches only the literal strings `\bshall\b`, `\bmust\b`,
`\bagree to\b`, and the normalized clause never contains a backslash;
so the flat penalty of 1 and the synthetic reason are never added.
Concretely, a clause with three markers `shall` and no payment term
stays at score 0/Low with no reason appended. -/
theorem C2_obligation_penalty_never_fires :
    (∀ clause : List Char,
      Utils.countObl (LanguageDetector.normalize_text clause) = 0) ∧
    Utils.analyze_clause_risk manyShallClause.toList =
      ("Low", "No strong risk indicators detected.", 0) := by
  constructor
  · intro clause
    exact oblAux_zero _ (no_backslash_normalize clause)
  · rfl

/-- C10: the suggestion engine ignores its `reasons` argument: any two
values of `reasons` give identical results. -/
theorem C10_suggest_independent_of_reasons (clause : List Char) (label r1 r2 : String) :
    Utils.suggest_alternatives_for_clause clause label r1 =
      Utils.suggest_alternatives_for_clause clause label r2 := rfl

/-- C3 counterexample: `utils.analyze_clause_risk` has no length
short-circuit: the 9-character clause "indemnify" is scanned, matches
a high-risk keyword and is labelled Medium with score 3 — not Low with
a fixed too-short explanation. -/
theorem C3_counterexample_utils_scans_short_clause :
    Utils.analyze_clause_risk "indemnify".toList = ("Medium", "indemnify", 3) ∧
    (strip "indemnify".toList).length < 30 := by
  exact ⟨by rfl, by decide⟩

/-- C3 amended: the short-circuit exists in `risk_engine.analyze_risk`
only: a clause of trimmed length < 30 yields Low with the fixed
explanation and no keyword scan. -/
theorem C3_amended_riskengine_short_circuit (clause : List Char)
    (h : (strip clause).length < 30) :
    RiskEngine.analyze_risk clause = ("Low", "यह केवल शीर्षक या अधूरा क्लॉज है।") := by
  unfold RiskEngine.analyze_risk
  rw [if_pos (Or.inr h)]

/-- C3 witness: the short-circuit theorem applied to "indemnify". -/
theorem C3_amended_witness :
    (strip "indemnify".toList).length < 30 ∧
    RiskEngine.analyze_risk "indemnify".toList =
      ("Low", "यह केवल शीर्षक या अधूरा क्लॉज है।") :=
  ⟨by decide, C3_amended_riskengine_short_circuit _ (by decide)⟩

set_option maxRecDepth 100000 in
/-- C1: the tier cutoffs are NOT the same across the system.
`utils.analyze_clause_risk` uses High ≥ 5 / Medium ≥ 2 (witnessed at
scores 5, 2 and 1), but `risk_engine.analyze_risk` uses High ≥ 6 /
Medium ≥ 3: a clause scoring exactly 5 there is labelled Medium. -/
theorem C1_riskengine_score_five_is_medium :
    RiskEngine.analyze_risk_score scoreFiveClause.toList = 5 ∧
    RiskEngine.analyze_risk scoreFiveClause.toList =
      ("Medium", "मध्यम जोखिम: समीक्षा आवश्यक।") ∧
    Utils.analyze_clause_risk utilsFiveClause.toList =
      ("High", "indemnify, jurisdiction, renewal", 5) ∧
    Utils.analyze_clause_risk utilsTwoClause.toList =
      ("Medium", "jurisdiction, renewal", 2) ∧
    Utils.analyze_clause_risk utilsOneClause.toList = ("Low", "renewal", 1) :=
  ⟨by rfl, by rfl, by rfl, by rfl, by rfl⟩

/-- C7 counterexample: a 55-character input long enough for the
segmenter (≥ 50) but failing every acceptance filter is returned whole
by the whole-document fallback, so the returned clause has trimmed
length 55, below the > 70 acceptance minimum. -/
theorem C7_counterexample_fallback_clause_below_70 :
    ClauseExtractor.extract_clauses shortDocText.toList = [shortDocText.toList] ∧
    (strip shortDocText.toList).length = 55 ∧
    ¬ 70 < (strip shortDocText.toList).length := by
  refine ⟨by rfl, by rfl, by decide⟩

/-- C7 amended: every returned clause has trimmed length > 70, unless
the result is the single whole-document fallback clause (the trimmed
preprocessed text), which may be arbitrarily short. -/
theorem C7_amended_length_invariant_or_fallback (text : List Char) :
    (∀ c ∈ ClauseExtractor.extract_clauses text, 70 < (strip c).length) ∨
    ClauseExtractor.extract_clauses text = [strip (ClauseExtractor.preprocess text)] := by
  unfold ClauseExtractor.extract_clauses
  split
  · left; intro c hc; simp at hc
  · dsimp only
    split
    all_goals
      split
      · right; rfl
      · left
        intro c hc
        rcases List.mem_filterMap.mp hc with ⟨a, _, ha⟩
        by_cases h70 : 70 < (ClauseExtractor.finalClean a).length
        · rw [if_pos h70] at ha
          injection ha with ha
          subst ha
          have hss : strip (ClauseExtractor.finalClean a) = ClauseExtractor.finalClean a :=
            strip_idem _
          rw [hss]
          exact h70
        · rw [if_neg h70] at ha
          exact absurd ha (by simp)

theorem brokenNumPat_false : ∀ t : List Char, '\\' ∉ t → Utils.brokenNumPat t = false := by
  intro t
  induction t with
  | nil => intro _; rfl
  | cons c rest ih =>
    intro h
    have hc : c ≠ '\\' := fun he => h (he ▸ List.mem_cons_self c rest)
    have hrest : '\\' ∉ rest := fun hm => h (List.mem_cons_of_mem c hm)
    rw [Utils.brokenNumPat]
    simp [hc, ih hrest]

theorem hasSub_backslash_false (p : List Char) :
    ∀ t : List Char, '\\' ∉ t → hasSub ('\\' :: p) t = false := by
  intro t
  induction t with
  | nil => intro _; rfl
  | cons c rest ih =>
    intro h
    have hc : ('\\' : Char) ≠ c := fun he => h (he ▸ List.mem_cons_self c rest)
    have hrest : '\\' ∉ rest := fun hm => h (List.mem_cons_of_mem c hm)
    rw [hasSub]
    simp [isPrefixL_cons_false hc, ih hrest]

/-- C8: the structure signals of `utils.looks_like_contract` never
fire on backslash-free text (their regexes, written with doubled
backslashes, match only literal backslash sequences), so a plausible
contract with one keyword, a numbered item "1." and the word "parties"
— intended score 3 — is rejected. -/
theorem C8_structure_signals_never_fire :
    Utils.looks_like_contract contractLikeText.toList = false ∧
    80 ≤ (strip contractLikeText.toList).length ∧
    subStr "agreement" contractLikeText.toList = true ∧
    subStr " 1. " contractLikeText.toList = true ∧
    subStr "parties" contractLikeText.toList = true ∧
    Utils.brokenNumPat (contractLikeText.toList.map lowerChar) = false ∧
    subStr "\\bparty\\b" (contractLikeText.toList.map lowerChar) = false := by
  refine ⟨by rfl, by decide, by rfl, by rfl, by rfl, ?_, ?_⟩
  · exact brokenNumPat_false _ (by decide)
  · exact hasSub_backslash_false _ _ (by decide)

/-- C9: the suggestion engine returns an explicit absence (`none`),
never an empty string; tiers other than High/Medium always get `none`;
when no keyed phrase is present the result is `none`; and a suggestion
is produced only for the (High, high-risk-phrase) and
(Medium, jurisdiction-phrase) table entries. -/
theorem C9_suggest_none_or_table_entry (clause : List Char) (label reasons : String) :
    Utils.suggest_alternatives_for_clause clause label reasons ≠ some "" ∧
    ((label ≠ "High" ∧ label ≠ "Medium") →
      Utils.suggest_alternatives_for_clause clause label reasons = none) ∧
    ((Utils.highPhrase clause = false ∧ Utils.medPhrase clause = false) →
      Utils.suggest_alternatives_for_clause clause label reasons = none) ∧
    (∀ s, Utils.suggest_alternatives_for_clause clause label reasons = some s →
      (label = "High" ∧ Utils.highPhrase clause = true) ∨
      (label = "Medium" ∧ Utils.medPhrase clause = true)) := by
  unfold Utils.suggest_alternatives_for_clause
  dsimp only
  split_ifs with h1 h2 h3 h4
  · simp only [Bool.and_eq_true, beq_iff_eq] at h1
    refine ⟨by simp, fun hl => absurd h1.1 hl.1, fun hp => ?_, fun s _ => ?_⟩
    · have : Utils.highPhrase clause = true := by
        simp only [Utils.highPhrase, Bool.or_eq_true]
        simp only [Bool.or_eq_true] at h1
        tauto
      rw [hp.1] at this
      exact absurd this (by simp)
    · left
      refine ⟨h1.1, ?_⟩
      simp only [Utils.highPhrase, Bool.or_eq_true]
      simp only [Bool.or_eq_true] at h1
      tauto
  · simp only [Bool.and_eq_true, beq_iff_eq] at h2
    refine ⟨by simp, fun hl => absurd h2.1 hl.1, fun hp => ?_, fun s _ => ?_⟩
    · have : Utils.highPhrase clause = true := by
        simp only [Utils.highPhrase, Bool.or_eq_true]
        simp only [Bool.or_eq_true] at h2
        tauto
      rw [hp.1] at this
      exact absurd this (by simp)
    · left
      refine ⟨h2.1, ?_⟩
      simp only [Utils.highPhrase, Bool.or_eq_true]
      simp only [Bool.or_eq_true] at h2
      tauto
  · simp only [Bool.and_eq_true, beq_iff_eq] at h3
    refine ⟨by simp, fun hl => absurd h3.1 hl.1, fun hp => ?_, fun s _ => ?_⟩
    · have : Utils.highPhrase clause = true := by
        simp only [Utils.highPhrase, Bool.or_eq_true]
        simp only [Bool.or_eq_true] at h3
        tauto
      rw [hp.1] at this
      exact absurd this (by simp)
    · left
      refine ⟨h3.1, ?_⟩
      simp only [Utils.highPhrase, Bool.or_eq_true]
      simp only [Bool.or_eq_true] at h3
      tauto
  · simp only [Bool.and_eq_true, beq_iff_eq] at h4
    refine ⟨by simp, fun hl => absurd h4.1 hl.2, fun hp => ?_, fun s _ => ?_⟩
    · have : Utils.medPhrase clause = true := by
        simp only [Utils.medPhrase, Bool.or_eq_true]
        simp only [Bool.or_eq_true] at h4
        tauto
      rw [hp.2] at this
      exact absurd this (by simp)
    · right
      refine ⟨h4.1, ?_⟩
      simp only [Utils.medPhrase, Bool.or_eq_true]
      simp only [Bool.or_eq_true] at h4
      tauto
  · exact ⟨by simp, fun _ => rfl, fun _ => rfl, fun s hs => absurd hs (by simp)⟩

/-- C9 witness: the no-match branch applied to a concrete clause with
no keyed phrase at Low tier yields `none`. -/
theorem C9_witness :
    Utils.suggest_alternatives_for_clause "hello world".toList "Low" "r" = none :=
  (C9_suggest_none_or_table_entry "hello world".toList "Low" "r").2.1
    ⟨by decide, by decide⟩

theorem crSub_id : ∀ l : List Char, '\r' ∉ l → ClauseExtractor.crSub l = l := by
  intro l
  induction l with
  | nil => intro _; rfl
  | cons c tl ih =>
    intro h
    have hc : c ≠ '\r' := fun he => h (he ▸ List.mem_cons_self c tl)
    have htl : '\r' ∉ tl := fun hm => h (List.mem_cons_of_mem c hm)
    cases tl with
    | nil => simp [ClauseExtractor.crSub, hc]
    | cons d tl2 =>
      rw [ClauseExtractor.crSub, if_neg hc, ih htl]

theorem dandaAux_id : ∀ l : List Char, '।' ∉ l → ClauseExtractor.dandaAux 0 l = l := by
  intro l
  induction l with
  | nil => intro _; rfl
  | cons c tl ih =>
    intro h
    have hc : c ≠ '।' := fun he => h (he ▸ List.mem_cons_self c tl)
    have htl : '।' ∉ tl := fun hm => h (List.mem_cons_of_mem c hm)
    rw [ClauseExtractor.dandaAux, if_neg hc, ih htl]

theorem tagAux1_id : ∀ l : List Char, '<' ∉ l → ClauseExtractor.tagAux1 0 l = l := by
  intro l
  induction l with
  | nil => intro _; rfl
  | cons c tl ih =>
    intro h
    have hc : c ≠ '<' := fun he => h (he ▸ List.mem_cons_self c tl)
    have htl : '<' ∉ tl := fun hm => h (List.mem_cons_of_mem c hm)
    rw [ClauseExtractor.tagAux1, if_neg (by simp [hc]), ih htl]

theorem tagAux2_id : ∀ l : List Char, '<' ∉ l → ClauseExtractor.tagAux2 0 l = l := by
  intro l
  induction l with
  | nil => intro _; rfl
  | cons c tl ih =>
    intro h
    have hc : c ≠ '<' := fun he => h (he ▸ List.mem_cons_self c tl)
    have htl : '<' ∉ tl := fun hm => h (List.mem_cons_of_mem c hm)
    rw [ClauseExtractor.tagAux2, if_neg hc, ih htl]

/-- `finalClean` is just collapse-and-trim on markup-free clauses. -/
theorem finalClean_no_tags {c : List Char} (h : '<' ∉ c) :
    ClauseExtractor.finalClean c = strip (squeeze c) := by
  unfold ClauseExtractor.finalClean
  rw [tagAux1_id c h, tagAux2_id c h]

theorem hasTwoNL_cons_false {c : Char} {rest : List Char}
    (h : ClauseExtractor.hasTwoNL (c :: rest) = false) :
    ClauseExtractor.hasTwoNL rest = false := by
  rw [ClauseExtractor.hasTwoNL] at h
  exact (Bool.or_eq_false_iff.mp h).2

theorem hasTwoNL_append_false :
    ∀ a b : List Char, ClauseExtractor.hasTwoNL (a ++ b) = false →
      ClauseExtractor.hasTwoNL b = false := by
  intro a
  induction a with
  | nil => intro b h; exact h
  | cons c a' ih =>
    intro b h
    exact ih b (hasTwoNL_cons_false h)

theorem hasNN_false_of_hasTwoNL :
    ∀ l : List Char, ClauseExtractor.hasTwoNL l = false →
      ClauseExtractor.hasNN l = false := by
  intro l
  induction l with
  | nil => intro _; rfl
  | cons a tl ih =>
    intro h
    cases tl with
    | nil => rfl
    | cons b tl2 =>
      rw [ClauseExtractor.hasNN]
      have h2 := hasTwoNL_cons_false h
      rw [Bool.or_eq_false_iff]
      refine ⟨?_, ih h2⟩
      by_cases ha : a = '\n'
      · by_cases hb2 : b = '\n'
        · exfalso
          subst ha; subst hb2
          rw [ClauseExtractor.hasTwoNL] at h
          have h1 := (Bool.or_eq_false_iff.mp h).1
          rw [List.dropWhile_cons, if_neg (by simp)] at h1
          simp at h1
        · simp [hb2]
      · simp [ha]

theorem fbAux_id :
    ∀ l acc : List Char, ClauseExtractor.hasNN l = false →
      ClauseExtractor.fbAux 0 acc l = [acc.reverse ++ l] := by
  intro l
  induction l with
  | nil => intro acc _; simp [ClauseExtractor.fbAux]
  | cons c rest ih =>
    intro acc h
    have hrest : ClauseExtractor.hasNN rest = false := by
      cases rest with
      | nil => rfl
      | cons b tl2 =>
        rw [ClauseExtractor.hasNN] at h
        exact (Bool.or_eq_false_iff.mp h).2
    have hcond : (decide (c = '\n') && !(rest.takeWhile (· == '\n')).isEmpty &&
        ClauseExtractor.fbLook (rest.drop (rest.takeWhile (· == '\n')).length)) = false := by
      by_cases hc : c = '\n'
      · subst hc
        have hemp : (rest.takeWhile (· == '\n')).isEmpty = true := by
          cases rest with
          | nil => rfl
          | cons b tl2 =>
            have hb : b ≠ '\n' := by
              intro hb
              subst hb
              rw [ClauseExtractor.hasNN] at h
              simp at h
            rw [List.takeWhile_cons, if_neg (by simp [hb])]
            rfl
        simp [hemp]
      · simp [hc]
    rw [ClauseExtractor.fbAux, if_neg (by simp [hcond]), ih (c :: acc) hrest]
    simp

theorem splitNumAux_single :
    ∀ l acc : List Char, ClauseExtractor.hasNumTok l = false →
      ClauseExtractor.splitNumAux acc l = [acc.reverse ++ l] := by
  intro l
  induction l with
  | nil => intro acc _; simp [ClauseExtractor.splitNumAux]
  | cons c rest ih =>
    intro acc h
    rw [ClauseExtractor.hasNumTok] at h
    obtain ⟨h1, h2⟩ := Bool.or_eq_false_iff.mp h
    rw [ClauseExtractor.splitNumAux, if_neg (by simp [h1]), ih (c :: acc) h2]
    simp

theorem split_numbered_single (l : List Char)
    (h0 : ClauseExtractor.numCoreB l = false)
    (h : ClauseExtractor.hasNumTok l = false) :
    ClauseExtractor.split_numbered l = [l] := by
  unfold ClauseExtractor.split_numbered
  by_cases hl : l = []
  · subst hl; rfl
  · rw [if_neg hl, if_neg (by simp [h0])]
    simpa using splitNumAux_single l [] h

theorem dropWhile_head_nl :
    ∀ (r rem : List Char), (∀ d ∈ r, isSpaceB d = true) → '\n' ∈ r →
      ((r ++ rem).dropWhile (fun d => isSpaceB d && d != '\n')).headD 'x' = '\n' := by
  intro r
  induction r with
  | nil => intro rem _ hmem; simp at hmem
  | cons d r' ih =>
    intro rem hsp hmem
    by_cases hd : d = '\n'
    · subst hd
      rw [List.cons_append, List.dropWhile_cons, if_neg (by simp)]
      rfl
    · have hmem' : '\n' ∈ r' := by
        rcases List.mem_cons.mp hmem with h | h
        · exact absurd h.symm hd
        · exact h
      rw [List.cons_append, List.dropWhile_cons,
        if_pos (by simp [hsp d (List.mem_cons_self d r'), hd])]
      exact ih rem (fun e he => hsp e (List.mem_cons_of_mem d he)) hmem'

theorem hasTwoNL_of_run :
    ∀ (r rem : List Char), (∀ d ∈ r, isSpaceB d = true) → 2 ≤ r.count '\n' →
      ClauseExtractor.hasTwoNL (r ++ rem) = true := by
  intro r
  induction r with
  | nil => intro rem _ hc; simp at hc
  | cons d r' ih =>
    intro rem hsp hc
    rw [List.cons_append, ClauseExtractor.hasTwoNL]
    by_cases hd : d = '\n'
    · subst hd
      have hmem : '\n' ∈ r' := by
        by_contra hnm
        have h0 : r'.count '\n' = 0 := List.count_eq_zero.mpr hnm
        rw [List.count_cons] at hc
        simp [h0] at hc
      apply Bool.or_eq_true_iff.mpr
      left
      rw [dropWhile_head_nl r' rem (fun e he => hsp e (List.mem_cons_of_mem _ he)) hmem]
      simp
    · have hc' : 2 ≤ r'.count '\n' := by
        rw [List.count_cons] at hc
        simp only [beq_iff_eq] at hc
        rw [if_neg hd] at hc
        omega
      exact Bool.or_eq_true_iff.mpr (Or.inr (ih rem
        (fun e he => hsp e (List.mem_cons_of_mem d he)) hc'))

theorem blankAux_skip :
    ∀ w rem : List Char, ClauseExtractor.blankAux w.length (w ++ rem) =
      ClauseExtractor.blankAux 0 rem := by
  intro w
  induction w with
  | nil => intro rem; rfl
  | cons d w' ih => intro rem; exact ih rem

theorem blankAux_id_bounded :
    ∀ (n : Nat) (l : List Char), l.length ≤ n →
      ClauseExtractor.hasTwoNL l = false → ClauseExtractor.blankAux 0 l = l := by
  intro n
  induction n with
  | zero =>
    intro l hl _
    cases l with
    | nil => rfl
    | cons c rest => simp at hl
  | succ n ih =>
    intro l hl h
    cases l with
    | nil => rfl
    | cons c rest =>
      by_cases hc : isSpaceB c = true
      · have hall : ∀ d ∈ c :: rest.takeWhile isSpaceB, isSpaceB d = true := by
          intro d hd
          rcases List.mem_cons.mp hd with h' | h'
          · subst h'; exact hc
          · exact List.mem_takeWhile_imp h'
        have hcnt : ¬ 2 ≤ ((c :: rest.takeWhile isSpaceB).count '\n') := by
          intro h2
          have hsplit : c :: rest =
              (c :: rest.takeWhile isSpaceB) ++ rest.dropWhile isSpaceB := by
            rw [List.cons_append, List.takeWhile_append_dropWhile]
          have := hasTwoNL_of_run (c :: rest.takeWhile isSpaceB)
            (rest.dropWhile isSpaceB) hall h2
          rw [← hsplit] at this
          rw [this] at h
          exact absurd h (by decide)
        rw [ClauseExtractor.blankAux, if_pos hc, if_neg hcnt]
        have he : rest = rest.takeWhile isSpaceB ++ rest.dropWhile isSpaceB :=
          (List.takeWhile_append_dropWhile isSpaceB rest).symm
        have hskip : ClauseExtractor.blankAux (rest.takeWhile isSpaceB).length rest =
            ClauseExtractor.blankAux 0 (rest.dropWhile isSpaceB) := by
          calc ClauseExtractor.blankAux (rest.takeWhile isSpaceB).length rest
              = ClauseExtractor.blankAux (rest.takeWhile isSpaceB).length
                  (rest.takeWhile isSpaceB ++ rest.dropWhile isSpaceB) := by rw [← he]
            _ = ClauseExtractor.blankAux 0 (rest.dropWhile isSpaceB) := blankAux_skip _ _
        rw [hskip]
        have hlen2 : (rest.dropWhile isSpaceB).length ≤ n := by
          have h1 : (rest.dropWhile isSpaceB).length ≤ rest.length :=
            (List.dropWhile_suffix isSpaceB).length_le
          simp only [List.length_cons] at hl
          omega
        have hh2 : ClauseExtractor.hasTwoNL (rest.dropWhile isSpaceB) = false := by
          apply hasTwoNL_append_false (rest.takeWhile isSpaceB)
          rw [List.takeWhile_append_dropWhile]
          exact hasTwoNL_cons_false h
        rw [ih _ hlen2 hh2, List.cons_append, List.takeWhile_append_dropWhile]
      · rw [ClauseExtractor.blankAux, if_neg hc]
        have hlen2 : rest.length ≤ n := by
          simp only [List.length_cons] at hl
          omega
        rw [ih rest hlen2 (hasTwoNL_cons_false h)]

theorem blankSub_id {l : List Char} (h : ClauseExtractor.hasTwoNL l = false) :
    ClauseExtractor.blankSub l = l :=
  blankAux_id_bounded l.length l le_rfl h

theorem dandaSub_id {l : List Char} (h : '।' ∉ l) : ClauseExtractor.dandaSub l = l :=
  dandaAux_id l h

theorem preprocess_id {text : List Char} (hr : '\r' ∉ text) (hd : '।' ∉ text)
    (hb : ClauseExtractor.hasTwoNL text = false) :
    ClauseExtractor.preprocess text = text := by
  unfold ClauseExtractor.preprocess
  rw [crSub_id text hr, blankSub_id hb, dandaSub_id hd]

theorem split_fallback_single {l : List Char} (h : ClauseExtractor.hasTwoNL l = false) :
    ClauseExtractor.split_fallback l = [l] := by
  unfold ClauseExtractor.split_fallback
  simpa using fbAux_id l [] (hasNN_false_of_hasTwoNL l h)

theorem filterMap_singleton_length_le {α β : Type} (f : α → Option β) (a : α) :
    (List.filterMap f [a]).length ≤ 1 := by
  cases h : f a <;> simp [List.filterMap_cons, h]

theorem filterMap_singleton_some {α β : Type} {f : α → Option β} {a : α} {b : β}
    (h : f a = some b) : List.filterMap f [a] = [b] := by
  simp [List.filterMap_cons, h]

set_option maxRecDepth 100000 in
/-- C5 counterexample: on a 119-character single-line input containing
one doubled space, the segmenter returns one clause, but that clause
is the whitespace-collapsed text, not the trimmed input. -/
theorem C5_counterexample_clause_is_collapsed_not_trimmed :
    ClauseExtractor.extract_clauses doubleSpaceText.toList = [doubleSpaceCollapsed.toList] ∧
    doubleSpaceCollapsed.toList ≠ strip doubleSpaceText.toList := by
  exact ⟨by rfl, by decide⟩

/-- C5 amended: for a text with no carriage returns, no danda, no
markup, no blank lines and no numbered-item tokens, whose collapsed
trimmed length exceeds 80, segmentation returns exactly one clause:
the trimmed input with whitespace runs collapsed to single spaces. -/
theorem C5_amended_single_clause_collapsed (text : List Char)
    (hr : '\r' ∉ text) (hda : '।' ∉ text) (hlt : '<' ∉ text)
    (hb : ClauseExtractor.hasTwoNL text = false)
    (h0 : ClauseExtractor.numCoreB text = false)
    (hn : ClauseExtractor.hasNumTok text = false)
    (hlen : 80 < (strip (squeeze (strip text))).length) :
    ClauseExtractor.extract_clauses text = [strip (squeeze (strip text))] := by
  have hst : 80 < (strip text).length :=
    lt_of_lt_of_le hlen (le_trans (strip_length_le _) (squeeze_length_le _))
  have hguard : ¬(text = [] ∨ (strip text).length < 50) := by
    rintro (rfl | hshort)
    · exact absurd hst (by decide)
    · omega
  unfold ClauseExtractor.extract_clauses
  rw [if_neg hguard]
  dsimp only
  rw [preprocess_id hr hda hb]
  rw [split_numbered_single text h0 hn]
  rw [if_pos (filterMap_singleton_length_le _ _)]
  rw [split_fallback_single hb]
  have hfb : List.filterMap
      (fun p => if 80 < (strip p).length then some (strip p) else none) [text] =
      [strip text] :=
    filterMap_singleton_some (by rw [if_pos hst])
  rw [hfb]
  have hlt2 : '<' ∉ strip text := fun hm => hlt (mem_strip hm)
  have hfc : ClauseExtractor.finalClean (strip text) = strip (squeeze (strip text)) :=
    finalClean_no_tags hlt2
  have hfin : List.filterMap
      (fun c => if 70 < (ClauseExtractor.finalClean c).length
        then some (ClauseExtractor.finalClean c) else none) [strip text] =
      [strip (squeeze (strip text))] := by
    refine filterMap_singleton_some ?_
    rw [hfc, if_pos (by omega)]
  rw [hfin]
  rw [if_neg (by simp)]

set_option maxRecDepth 100000 in
/-- C5 witness: the amended theorem applied to a concrete
94-character single-spaced text, which is returned verbatim. -/
theorem C5_amended_witness :
    ClauseExtractor.extract_clauses singleClauseText.toList =
      [strip (squeeze (strip singleClauseText.toList))] ∧
    strip (squeeze (strip singleClauseText.toList)) = singleClauseText.toList :=
  ⟨C5_amended_single_clause_collapsed singleClauseText.toList (by decide) (by decide)
    (by decide) (by decide) (by decide) (by decide) (by decide), by decide⟩

set_option maxRecDepth 100000 in
/-- C6 counterexample: three long sentences separated by ". " with no
numbering and no blank lines come back as ONE clause (the whole text):
there is no sentence-split stage in `extract_clauses`. -/
theorem C6_counterexample_sentences_not_split :
    ClauseExtractor.extract_clauses threeSentenceText.toList = [threeSentenceText.toList] ∧
    subStr ". " threeSentenceText.toList = true := by
  exact ⟨by rfl, by rfl⟩

set_option maxRecDepth 100000 in
/-- C6 amended: the only splitting fallback is the blank-line one:
`re.split(r'\n{2,}(?=\d+[.)]|\s*[A-Z][.)]\s)')`, keeping fragments of
trimmed length > 80.  Two long paragraphs separated by a blank line
with a lettered marker are split into two clauses. -/
theorem C6_amended_blankline_fallback_split :
    ClauseExtractor.extract_clauses twoParaText.toList =
      [twoParaFirst.toList, twoParaSecond.toList] := by rfl

set_option maxRecDepth 100000 in
/-- C7 witness: the amended length invariant instantiated on the
55-character whole-document-fallback input. -/
theorem C7_amended_witness :
    (∀ c ∈ ClauseExtractor.extract_clauses shortDocText.toList, 70 < (strip c).length) ∨
    ClauseExtractor.extract_clauses shortDocText.toList =
      [strip (ClauseExtractor.preprocess shortDocText.toList)] :=
  C7_amended_length_invariant_or_fallback shortDocText.toList
